import Mathlib

/-!
# ghatime: execution-time statistics of workflow runs

Shallow embedding of `main.go` and the properties of its paginators, its
per-repository aggregation, its report and its date range.

Conventions.  The Go types `int64` and `int` are integers; an `int64` addition
wraps modulo 2^64 (`wrap64`).  Go slices are lists, `nil` being the empty list,
and a Go result pair `(value, error)` is a pair whose second component is `none`
for a nil error.  A loop without a bound of its own takes a `fuel` and yields
`none` when it runs out.
-/

namespace Ghatime

/-! ## Data model (main.go, lines 16-39) -/

/-- The struct `Job`. -/
structure Job where
  Name : String
  TotalTime : Int
  AvgTime : Int
  RunCount : Int
deriving DecidableEq, Repr

/-- The struct `Repository`. -/
structure Repository where
  Name : String
  TotalTime : Int
  AvgTime : Int
  Jobs : List Job
deriving DecidableEq, Repr

/-- The struct `WorkflowRun`. -/
structure WorkflowRun where
  CreatedAt : String
  UpdatedAt : String
  Name : String
deriving DecidableEq, Repr

/-- Two's complement reading of an integer in 64 bits: the value an `int64`
holds after an addition whose exact result is `x`. -/
def wrap64 (x : Int) : Int :=
  (x + 2 ^ 63) % 2 ^ 64 - 2 ^ 63

/-- Largest magnitude, in whole seconds, of a `time.Duration` (an `int64` count
of nanoseconds, `Time.Sub` saturating at its ends): the bound on what
`int64(endTime.Sub(startTime).Seconds())` can be. -/
def maxDurationSeconds : Int := 9223372036

/-! ## Aggregation of one repository (main.go, lines 93-127)

The expression `int64(endTime.Sub(startTime).Seconds())` of line 99 is built
from the standard library (`time.Parse`, `Time.Sub`, `Duration.Seconds`); it is
the parameter `duration` below. -/

/-- Lines 104-113: the run name is looked up in `jobs` (a `map[string]*Job`, here
an association list); an existing job gets the duration added and its run count
incremented, a missing one is created with run count 1. -/
def recordRun (name : String) (d : Int) : List (String × Job) → List (String × Job)
  | [] => [(name, { Name := name, TotalTime := d, AvgTime := 0, RunCount := 1 })]
  | (key, job) :: rest =>
    if key = name then
      (key, { job with TotalTime := wrap64 (job.TotalTime + d), RunCount := job.RunCount + 1 }) :: rest
    else
      (key, job) :: recordRun name d rest

/-- The local variables `totalTime`, `totalCount`, `jobs` of the task. -/
structure Totals where
  totalTime : Int
  totalCount : Int
  jobs : List (String × Job)
deriving DecidableEq, Repr

/-- Lines 93-94: the variables before the loop. -/
def Totals.init : Totals :=
  { totalTime := 0, totalCount := 0, jobs := [] }

/-- Lines 97-113: the body of the loop over `runs`. -/
def accumulate (duration : WorkflowRun → Int) (s : Totals) (run : WorkflowRun) : Totals :=
  { totalTime := wrap64 (s.totalTime + duration run)
    totalCount := s.totalCount + 1
    jobs := recordRun run.Name (duration run) s.jobs }

/-- Lines 117-119: the average of one job; Go's `/` on integers truncates toward
zero, and cannot overflow for a positive divisor. -/
def setAvgTime (job : Job) : Job :=
  if job.RunCount > 0 then { job with AvgTime := Int.tdiv job.TotalTime job.RunCount } else job

/-- Lines 251-257, `convertMapToSlice`: the jobs of the map, here in the order
of the association list; Go leaves the order of map iteration unspecified. -/
def convertMapToSlice (jobsMap : List (String × Job)) : List Job :=
  jobsMap.map Prod.snd

/-- Lines 96-120: the variables after both loops. -/
def aggregateRuns (duration : WorkflowRun → Int) (runs : List WorkflowRun) : Totals :=
  let s := runs.foldl (accumulate duration) Totals.init
  { s with jobs := s.jobs.map (fun kj => (kj.1, setAvgTime kj.2)) }

/-- Lines 93-128: the task of one repository after its runs are fetched; the
result is the repository sent on `orgReposChan`, `none` when nothing is sent. -/
def repoTask (duration : WorkflowRun → Int) (repo : Repository) (runs : List WorkflowRun) :
    Option Repository :=
  let s := aggregateRuns duration runs
  if s.totalCount > 0 then
    some { repo with
      TotalTime := s.totalTime
      AvgTime := Int.tdiv s.totalTime s.totalCount
      Jobs := convertMapToSlice s.jobs }
  else
    none

/-! ## Quantities the statements are phrased with -/

/-- Sum of the durations of a list of runs, as an exact integer. -/
def durationSum (duration : WorkflowRun → Int) (runs : List WorkflowRun) : Int :=
  (runs.map duration).sum

/-- The runs of a list that carry a given name. -/
def runsNamed (name : String) (runs : List WorkflowRun) : List WorkflowRun :=
  runs.filter (fun r => r.Name = name)

/-- Inputs on which the `int64` sums are exact: every duration is one that a
`time.Duration` can express in seconds, and there are at most 10^9 runs
(10^9 * 9223372036 is below 2^63). -/
def InRange (duration : WorkflowRun → Int) (runs : List WorkflowRun) : Prop :=
  (∀ r ∈ runs, -maxDurationSeconds ≤ duration r ∧ duration r ≤ maxDurationSeconds) ∧
    runs.length ≤ 10 ^ 9

/-- Loop invariant of lines 96-114 after the runs `seen`. -/
structure LoopInv (duration : WorkflowRun → Int) (seen : List WorkflowRun) (s : Totals) : Prop where
  total : s.totalTime = durationSum duration seen
  count : s.totalCount = seen.length
  nodup : (s.jobs.map Prod.fst).Nodup
  keys : ∀ n, n ∈ s.jobs.map Prod.fst ↔ n ∈ seen.map WorkflowRun.Name
  entry : ∀ kj ∈ s.jobs, kj.2.Name = kj.1 ∧ kj.2.AvgTime = 0 ∧
    kj.2.RunCount = (runsNamed kj.1 seen).length ∧
    kj.2.TotalTime = durationSum duration (runsNamed kj.1 seen)
  jobsSum : (s.jobs.map (fun kj => kj.2.TotalTime)).sum = s.totalTime
  jobsCount : (s.jobs.map (fun kj => kj.2.RunCount)).sum = s.totalCount

/-- Quotient of an integer by a count, rounded toward zero: the magnitude is the
floor of the quotient of the magnitudes and the sign is that of the dividend. -/
def truncDiv (a : Int) (n : Nat) : Int :=
  if 0 ≤ a then ((a.natAbs / n : Nat) : Int) else -((a.natAbs / n : Nat) : Int)

/-- Example data: three runs started at midnight, `build` taking 10 s and 20 s and
`test` taking 5 s. -/
def exampleRuns : List WorkflowRun :=
  [{ CreatedAt := "2024-01-01T00:00:00Z", UpdatedAt := "2024-01-01T00:00:10Z", Name := "build" },
   { CreatedAt := "2024-01-01T00:00:00Z", UpdatedAt := "2024-01-01T00:00:20Z", Name := "build" },
   { CreatedAt := "2024-01-01T00:00:00Z", UpdatedAt := "2024-01-01T00:00:05Z", Name := "test" }]

/-- Example data: two runs whose `updated_at` precedes `created_at`, by 5 s and 2 s. -/
def invertedRuns : List WorkflowRun :=
  [{ CreatedAt := "2024-01-01T00:00:05Z", UpdatedAt := "2024-01-01T00:00:00Z", Name := "build" },
   { CreatedAt := "2024-01-01T00:00:02Z", UpdatedAt := "2024-01-01T00:00:00Z", Name := "test" }]

/-- The value of `int64(endTime.Sub(startTime).Seconds())` on the timestamps of
the example data, and 0 on any other run. -/
def exampleDuration (r : WorkflowRun) : Int :=
  if r.CreatedAt = "2024-01-01T00:00:00Z" then
    if r.UpdatedAt = "2024-01-01T00:00:10Z" then 10
    else if r.UpdatedAt = "2024-01-01T00:00:20Z" then 20
    else if r.UpdatedAt = "2024-01-01T00:00:05Z" then 5
    else 0
  else if r.UpdatedAt = "2024-01-01T00:00:00Z" then
    if r.CreatedAt = "2024-01-01T00:00:05Z" then -5
    else if r.CreatedAt = "2024-01-01T00:00:02Z" then -2
    else 0
  else 0

/-- Example data: the repository `A` as listed, before its runs are fetched. -/
def exampleRepo : Repository :=
  { Name := "A", TotalTime := 0, AvgTime := 0, Jobs := [] }

/-! ## Paginators (main.go, lines 161-179 and 204-223)

A page fetcher (`fetchRepositoriesPage`, `fetchWorkflowRunsPage` with every
argument but `page` fixed) is a function from the page number to the Go result
pair.  The loops have no bound of their own: `fuel` counts iterations and the
result is `none` when it runs out. -/

/-- What `getRepositories` returns, with the page numbers it requested, in order. -/
structure RepositoriesResult (ε : Type) where
  repos : List Repository
  err : Option ε
  calls : List Nat
deriving DecidableEq, Repr

/-- What `getWorkflowRuns` returns, with the page numbers it requested and the
counts it printed in its `Found n workflow runs` lines, both in order. -/
structure WorkflowRunsResult (ε : Type) where
  runs : List WorkflowRun
  err : Option ε
  calls : List Nat
  found : List Nat
deriving DecidableEq, Repr

/-- Lines 165-178: the loop of `getRepositories`, from the state `page`, `allRepos`. -/
def getRepositoriesLoop {ε : Type} (fetchRepositoriesPage : Nat → List Repository × Option ε) :
    Nat → Nat → List Repository → List Nat → Option (RepositoriesResult ε)
  | 0, _, _, _ => none
  | fuel + 1, page, allRepos, calls =>
    match fetchRepositoriesPage page with
    | (_, some err) => some { repos := [], err := some err, calls := calls ++ [page] }
    | (repos, none) =>
      if repos.length = 0 then
        some { repos := allRepos, err := none, calls := calls ++ [page] }
      else
        getRepositoriesLoop fetchRepositoriesPage fuel (page + 1) (allRepos ++ repos)
          (calls ++ [page])

/-- Lines 161-179, `getRepositories`. -/
def getRepositories {ε : Type} (fetchRepositoriesPage : Nat → List Repository × Option ε)
    (fuel : Nat) : Option (RepositoriesResult ε) :=
  getRepositoriesLoop fetchRepositoriesPage fuel 1 [] []

/-- Lines 208-222: the loop of `getWorkflowRuns`, from the state `page`, `allRuns`. -/
def getWorkflowRunsLoop {ε : Type} (fetchWorkflowRunsPage : Nat → List WorkflowRun × Option ε) :
    Nat → Nat → List WorkflowRun → List Nat → List Nat → Option (WorkflowRunsResult ε)
  | 0, _, _, _, _ => none
  | fuel + 1, page, allRuns, calls, found =>
    match fetchWorkflowRunsPage page with
    | (_, some err) =>
      some { runs := [], err := some err, calls := calls ++ [page], found := found }
    | (runs, none) =>
      if runs.length = 0 then
        some { runs := allRuns, err := none, calls := calls ++ [page],
               found := found ++ [runs.length] }
      else
        getWorkflowRunsLoop fetchWorkflowRunsPage fuel (page + 1) (allRuns ++ runs)
          (calls ++ [page]) (found ++ [runs.length])

/-- Lines 204-223, `getWorkflowRuns`. -/
def getWorkflowRuns {ε : Type} (fetchWorkflowRunsPage : Nat → List WorkflowRun × Option ε)
    (fuel : Nat) : Option (WorkflowRunsResult ε) :=
  getWorkflowRunsLoop fetchWorkflowRunsPage fuel 1 [] [] []

/-- Concatenation of the pages `first`, ..., `first + count - 1` of a fetcher. -/
def pagesFrom {α ε : Type} (fetch : Nat → List α × Option ε) (first count : Nat) : List α :=
  ((List.range' first count).map (fun i => (fetch i).1)).flatten

/-- Example data: a fetcher of runs with two non-empty pages and then an empty one. -/
def exampleRunPages : Nat → List WorkflowRun × Option String
  | 1 => ([{ CreatedAt := "2024-01-01T00:00:00Z", UpdatedAt := "2024-01-01T00:00:10Z", Name := "build" },
           { CreatedAt := "2024-01-01T00:00:00Z", UpdatedAt := "2024-01-01T00:00:20Z", Name := "build" }], none)
  | 2 => ([{ CreatedAt := "2024-01-01T00:00:00Z", UpdatedAt := "2024-01-01T00:00:05Z", Name := "test" }], none)
  | _ => ([], none)

/-- Example data: a fetcher of repositories with one non-empty page. -/
def exampleRepoPages : Nat → List Repository × Option String
  | 1 => ([{ Name := "A", TotalTime := 0, AvgTime := 0, Jobs := [] },
           { Name := "B", TotalTime := 0, AvgTime := 0, Jobs := [] }], none)
  | _ => ([], none)

/-- Example data: a fetcher of runs whose second page fails. -/
def failingRunPages : Nat → List WorkflowRun × Option String
  | 1 => ([{ CreatedAt := "2024-01-01T00:00:00Z", UpdatedAt := "2024-01-01T00:00:10Z", Name := "build" }], none)
  | 2 => ([], some "unexpected EOF")
  | _ => ([], none)

/-- Example data: a fetcher of repositories whose first page fails. -/
def failingRepoPages : Nat → List Repository × Option String
  | 1 => ([], some "connection refused")
  | _ => ([], none)

/-! ## Fan-out and report (main.go, lines 82-158)

The tasks run concurrently; what reaches the report is the set of repositories
they send, in an order of arrival the scheduler chooses.  That order is the
parameter `arrival`, a rearrangement of the repositories sent. -/

/-- Line 146: the `less` function handed to `sort.Slice`. -/
def lessTotalTime (a b : Repository) : Bool :=
  decide (a.TotalTime > b.TotalTime)

/-- One pass of the inner loop of the insertion sort of the standard library
(`for j := i; j > a && less(j, j-1); j-- { swap(j, j-1) }`): the element `x` moves
toward the front while it is `less` than its left neighbour.  The part already
sorted is given back to front, its last element first. -/
def insertLess {α : Type} (less : α → α → Bool) (x : α) : List α → List α
  | [] => [x]
  | y :: ys => if less x y then y :: insertLess less x ys else x :: y :: ys

/-- The call `sort.Slice(s, less)` of the standard library, as the insertion sort
it runs on slices of at most 12 elements; on longer slices the library sorts by
the same `less` with a different (also unstable) algorithm. -/
def sortSlice {α : Type} (less : α → α → Bool) (s : List α) : List α :=
  (s.foldl (fun sortedRev x => insertLess less x sortedRev) []).reverse

/-- The anonymous struct of lines 149-155 that is printed as JSON. -/
structure Report where
  Org : String
  Repos : List Repository
deriving DecidableEq, Repr

/-- Lines 145-155: the collected repositories are sorted and wrapped. -/
def assembleReport (org : String) (orgRepos : List Repository) : Report :=
  { Org := org, Repos := sortSlice lessTotalTime orgRepos }

/-- What one task does: the error it returns to the errgroup and the repository
it sends on `orgReposChan`. -/
structure TaskResult (ε : Type) where
  err : Option ε
  sent : Option Repository
deriving DecidableEq, Repr

/-- Lines 87-129: the task of one repository.  The fetcher of a repository is
`fetchWorkflowRunsPage` at its name. -/
def pipeline {ε : Type} (duration : WorkflowRun → Int)
    (fetchWorkflowRunsPage : String → Nat → List WorkflowRun × Option ε) (fuel : Nat)
    (repo : Repository) : Option (TaskResult ε) :=
  match getWorkflowRuns (fetchWorkflowRunsPage repo.Name) fuel with
  | none => none
  | some res =>
    match res.err with
    | some err => some { err := some err, sent := none }
    | none => some { err := none, sent := repoTask duration repo res.runs }

/-- Lines 85-130: one task per repository; `none` when some task never returns. -/
def runTasks {ε : Type} (duration : WorkflowRun → Int)
    (fetchWorkflowRunsPage : String → Nat → List WorkflowRun × Option ε) (fuel : Nat) :
    List Repository → Option (List (TaskResult ε))
  | [] => some []
  | repo :: rest =>
    match pipeline duration fetchWorkflowRunsPage fuel repo,
      runTasks duration fetchWorkflowRunsPage fuel rest with
    | some r, some rs => some (r :: rs)
    | _, _ => none

/-- What lines 82-158 produce: the errors the tasks returned, in the order of
`repos` (`eg.Wait` yields the first of them to occur and line 136 prints it on
the standard error), and the report line 158 prints on the standard output. -/
structure Outcome (ε : Type) where
  taskErrors : List ε
  report : Report
deriving DecidableEq, Repr

/-- Lines 82-158 of `analyzeExecutionTime`, from the repositories listed by
`getRepositories`.  Nothing between the collector loop (lines 140-143) and the
print of line 158 looks at the error of `eg.Wait`. -/
def analyzeExecutionTime {ε : Type} (duration : WorkflowRun → Int)
    (fetchWorkflowRunsPage : String → Nat → List WorkflowRun × Option ε) (fuel : Nat)
    (org : String) (repos : List Repository)
    (arrival : List Repository → List Repository) : Option (Outcome ε) :=
  match runTasks duration fetchWorkflowRunsPage fuel repos with
  | none => none
  | some results =>
    some { taskErrors := results.filterMap (fun r => r.err)
           report := assembleReport org (arrival (results.filterMap (fun r => r.sent))) }

/-- Example data: the fetcher of an organisation in which the first request for
the runs of `A` fails while `B` has one run of 10 s. -/
def oneFetchFails : String → Nat → List WorkflowRun × Option String
  | "A", _ => ([], some "unexpected EOF")
  | "B", 1 => ([{ CreatedAt := "2024-01-01T00:00:00Z", UpdatedAt := "2024-01-01T00:00:10Z",
                  Name := "build" }], none)
  | _, _ => ([], none)

/-- Example data: the fetcher of an organisation in which `A` has the three runs of
`exampleRuns`, `B` has one run of 10 s and `C` has none. -/
def allSucceed : String → Nat → List WorkflowRun × Option String
  | "A", 1 => (exampleRuns, none)
  | "B", 1 => ([{ CreatedAt := "2024-01-01T00:00:00Z", UpdatedAt := "2024-01-01T00:00:10Z",
                  Name := "build" }], none)
  | _, _ => ([], none)

/-- Example data: the repositories `A`, `B`, `C` as listed. -/
def exampleRepos : List Repository :=
  [{ Name := "A", TotalTime := 0, AvgTime := 0, Jobs := [] },
   { Name := "B", TotalTime := 0, AvgTime := 0, Jobs := [] },
   { Name := "C", TotalTime := 0, AvgTime := 0, Jobs := [] }]

/-- Example data: a repository `A` with a total of 100 s. -/
def repoA100 : Repository :=
  { Name := "A", TotalTime := 100, AvgTime := 50,
    Jobs := [{ Name := "build", TotalTime := 100, AvgTime := 50, RunCount := 2 }] }

/-- Example data: a repository `B` with a total of 50 s. -/
def repoB50 : Repository :=
  { Name := "B", TotalTime := 50, AvgTime := 50,
    Jobs := [{ Name := "test", TotalTime := 50, AvgTime := 50, RunCount := 1 }] }

/-! ## Date range (main.go, lines 259-295)

`time.Parse`, `Time.After`, `time.Now` and `Time.Format` belong to the standard
library.  `timeParse` models `time.Parse` for the layout `2006-01-02`; the two
strings `weekAgo` and `today` stand for
`time.Now().AddDate(0, 0, -7).Format(layout)` and `time.Now().Format(layout)`. -/

/-- A calendar date: what a `time.Time` parsed with the layout `2006-01-02` holds
(midnight UTC of that day). -/
structure Date where
  year : Nat
  month : Nat
  day : Nat
deriving DecidableEq, Repr

/-- The zero `time.Time`, January 1 of year 1: what `time.Parse` returns next to an
error. -/
def Date.zero : Date :=
  { year := 1, month := 1, day := 1 }

/-- The method `Time.After` on two midnights: the first day is later than the second. -/
def Date.After (t u : Date) : Bool :=
  decide (t.year > u.year ∨ (t.year = u.year ∧
    (t.month > u.month ∨ (t.month = u.month ∧ t.day > u.day))))

/-- The test `'0' <= c && c <= '9'` of the parser. -/
def isDigit (c : Char) : Bool :=
  decide (48 ≤ c.toNat ∧ c.toNat ≤ 57)

/-- The value `c - '0'` of a digit. -/
def digitValue (c : Char) : Nat :=
  c.toNat - 48

/-- The function `isLeap` of package `time`. -/
def isLeap (year : Nat) : Bool :=
  decide (year % 4 = 0 ∧ (year % 100 ≠ 0 ∨ year % 400 = 0))

/-- The function `daysIn` of package `time`. -/
def daysIn (month year : Nat) : Nat :=
  if month = 2 then (if isLeap year then 29 else 28)
  else 30 + (month + month / 8) % 2

/-- The call `time.Parse("2006-01-02", value)`: four digits, a hyphen, two digits,
a hyphen, two digits and nothing more, the month within 1..12 and the day within
the month; `none` stands for an error. -/
def timeParse (value : String) : Option Date :=
  match value.toList with
  | [y1, y2, y3, y4, s1, m1, m2, s2, d1, d2] =>
    if isDigit y1 && isDigit y2 && isDigit y3 && isDigit y4 && s1 = '-' &&
        isDigit m1 && isDigit m2 && s2 = '-' && isDigit d1 && isDigit d2 then
      let year := digitValue y1 * 1000 + digitValue y2 * 100 + digitValue y3 * 10 + digitValue y4
      let month := digitValue m1 * 10 + digitValue m2
      let day := digitValue d1 * 10 + digitValue d2
      if 1 ≤ month ∧ month ≤ 12 ∧ 1 ≤ day ∧ day ≤ daysIn month year then
        some { year := year, month := month, day := day }
      else none
    else none
  | _ => none

/-- Lines 262-285: the defaults and the validation of the two strings; the result
is the pair of strings that go on, or the error returned. -/
def validateDates (weekAgo today fromStr toStr : String) : Except String (String × String) :=
  if fromStr = "" ∧ toStr = "" then
    Except.ok (weekAgo, today)
  else
    match (if fromStr ≠ "" then
        (match timeParse fromStr with
          | none => Except.error "invalid start date format: please use YYYY-MM-DD"
          | some _ => Except.ok fromStr)
      else Except.ok weekAgo) with
    | Except.error e => Except.error e
    | Except.ok f =>
      match (if toStr ≠ "" then
          (match timeParse toStr with
            | none => Except.error "invalid end date format: please use YYYY-MM-DD"
            | some _ => Except.ok toStr)
        else Except.ok today) with
      | Except.error e => Except.error e
      | Except.ok t => Except.ok (f, t)

/-- Lines 259-295, `parseDateRange`: the returned pair `(dateRange, err)`. -/
def parseDateRange (weekAgo today fromStr toStr : String) : String × Option String :=
  match validateDates weekAgo today fromStr toStr with
  | Except.error e => ("", some e)
  | Except.ok (f, t) =>
    let fromDate := (timeParse f).getD Date.zero
    let toDate := (timeParse t).getD Date.zero
    if fromDate.After toDate then
      ("", some "the start date must be before the end date")
    else
      (f ++ ".." ++ t, none)

/-- The character of a decimal digit. -/
def digitChar (k : Nat) : Char :=
  Char.ofNat (48 + k)

/-- Number of days of a month of the Gregorian calendar. -/
def daysInMonth (year month : Nat) : Nat :=
  match month with
  | 1 => 31
  | 2 => if year % 400 = 0 ∨ (year % 4 = 0 ∧ year % 100 ≠ 0) then 29 else 28
  | 3 => 31
  | 4 => 30
  | 5 => 31
  | 6 => 30
  | 7 => 31
  | 8 => 31
  | 9 => 30
  | 10 => 31
  | 11 => 30
  | 12 => 31
  | _ => 0

/-- The text `YYYY-MM-DD` of a date, written from the statement of the format. -/
def renderDate (d : Date) : String :=
  String.mk [digitChar (d.year / 1000), digitChar (d.year / 100 % 10),
    digitChar (d.year / 10 % 10), digitChar (d.year % 10), '-',
    digitChar (d.month / 10), digitChar (d.month % 10), '-',
    digitChar (d.day / 10), digitChar (d.day % 10)]

/-- The string `s` is the valid `YYYY-MM-DD` calendar date `d`. -/
def IsCalendarDate (s : String) (d : Date) : Prop :=
  d.year ≤ 9999 ∧ 1 ≤ d.month ∧ d.month ≤ 12 ∧ 1 ≤ d.day ∧
    d.day ≤ daysInMonth d.year d.month ∧ s = renderDate d

/-! ## Arithmetic of `int64` -/

theorem wrap64_of_fits (x : Int) (h1 : -2 ^ 63 ≤ x) (h2 : x < 2 ^ 63) : wrap64 x = x := by
  unfold wrap64
  norm_num at h1 h2 ⊢
  omega

theorem durationSum_nil (duration : WorkflowRun → Int) : durationSum duration [] = 0 := rfl

theorem durationSum_append (duration : WorkflowRun → Int) (a b : List WorkflowRun) :
    durationSum duration (a ++ b) = durationSum duration a + durationSum duration b := by
  simp [durationSum]

theorem durationSum_bound (duration : WorkflowRun → Int) (l : List WorkflowRun)
    (h : ∀ r ∈ l, -maxDurationSeconds ≤ duration r ∧ duration r ≤ maxDurationSeconds) :
    -(l.length * maxDurationSeconds) ≤ durationSum duration l ∧
      durationSum duration l ≤ l.length * maxDurationSeconds := by
  induction l with
  | nil => simp [durationSum]
  | cons r rest ih =>
    have hr := h r (List.mem_cons_self _ _)
    have ih' := ih (fun x hx => h x (List.mem_cons_of_mem _ hx))
    simp only [durationSum, List.map_cons, List.sum_cons, List.length_cons, Nat.cast_add,
      Nat.cast_one] at ih' ⊢
    constructor <;> nlinarith [hr.1, hr.2, ih'.1, ih'.2]

theorem durationSum_fits (duration : WorkflowRun → Int) (l : List WorkflowRun)
    (h : InRange duration l) :
    -2 ^ 63 ≤ durationSum duration l ∧ durationSum duration l < 2 ^ 63 := by
  obtain ⟨hb, hn⟩ := h
  have hs := durationSum_bound duration l hb
  have hn' : (l.length : Int) ≤ 10 ^ 9 := by exact_mod_cast hn
  unfold maxDurationSeconds at hs
  norm_num at hn' ⊢
  constructor <;> nlinarith [hs.1, hs.2]

theorem InRange.filter {duration : WorkflowRun → Int} {l : List WorkflowRun}
    (h : InRange duration l) (p : WorkflowRun → Bool) : InRange duration (l.filter p) :=
  ⟨fun r hr => h.1 r (List.mem_filter.mp hr).1, le_trans (List.length_filter_le _ _) h.2⟩

theorem InRange.of_append_left {duration : WorkflowRun → Int} {a b : List WorkflowRun}
    (h : InRange duration (a ++ b)) : InRange duration a :=
  ⟨fun r hr => h.1 r (List.mem_append_left _ hr), by
    have := h.2; simp only [List.length_append] at this; omega⟩

/-! ## The job map -/

theorem recordRun_keys (name : String) (d : Int) (m : List (String × Job)) :
    (recordRun name d m).map Prod.fst =
      if name ∈ m.map Prod.fst then m.map Prod.fst else m.map Prod.fst ++ [name] := by
  induction m with
  | nil => simp [recordRun]
  | cons kj rest ih =>
    obtain ⟨key, job⟩ := kj
    by_cases hk : key = name
    · simp [recordRun, hk]
    · have hk' : ¬ name = key := fun h => hk h.symm
      by_cases hm : name ∈ rest.map Prod.fst
      · simp only [recordRun, hk, if_false, List.map_cons, ih, hm, if_true, List.mem_cons,
          or_true]
      · simp only [recordRun, hk, if_false, List.map_cons, ih, hm, List.mem_cons, hk',
          or_self, List.cons_append]

theorem recordRun_mem (name : String) (d : Int) (m : List (String × Job))
    (hnd : (m.map Prod.fst).Nodup) (kj : String × Job) (h : kj ∈ recordRun name d m) :
    (kj.1 ≠ name ∧ kj ∈ m) ∨
      (name ∉ m.map Prod.fst ∧
        kj = (name, { Name := name, TotalTime := d, AvgTime := 0, RunCount := 1 })) ∨
      (∃ job, (name, job) ∈ m ∧
        kj = (name, { job with TotalTime := wrap64 (job.TotalTime + d),
                               RunCount := job.RunCount + 1 })) := by
  induction m with
  | nil =>
    simp only [recordRun, List.mem_singleton] at h
    exact Or.inr (Or.inl ⟨by simp, h⟩)
  | cons e rest ih =>
    obtain ⟨key, job⟩ := e
    simp only [List.map_cons, List.nodup_cons] at hnd
    by_cases hk : key = name
    · simp only [recordRun, hk, if_true, List.mem_cons] at h
      rcases h with h | h
      · exact Or.inr (Or.inr ⟨job, by simp [hk], h⟩)
      · have hn : kj.1 ≠ name := by
          intro hn
          apply hnd.1
          rw [hk, ← hn]
          exact List.mem_map_of_mem _ h
        exact Or.inl ⟨hn, List.mem_cons_of_mem _ h⟩
    · simp only [recordRun, hk, if_false, List.mem_cons] at h
      rcases h with h | h
      · refine Or.inl ⟨?_, by simp [h]⟩
        rw [h]; exact hk
      · rcases ih hnd.2 h with h1 | h2 | h3
        · exact Or.inl ⟨h1.1, List.mem_cons_of_mem _ h1.2⟩
        · refine Or.inr (Or.inl ⟨?_, h2.2⟩)
          simp only [List.map_cons, List.mem_cons, not_or]
          exact ⟨fun e => hk e.symm, h2.1⟩
        · obtain ⟨j, hj, e⟩ := h3
          exact Or.inr (Or.inr ⟨j, List.mem_cons_of_mem _ hj, e⟩)

theorem recordRun_sum (name : String) (d : Int) (m : List (String × Job))
    (hfit : ∀ job, (name, job) ∈ m → wrap64 (job.TotalTime + d) = job.TotalTime + d) :
    ((recordRun name d m).map (fun kj => kj.2.TotalTime)).sum =
      (m.map (fun kj => kj.2.TotalTime)).sum + d := by
  induction m with
  | nil => simp [recordRun]
  | cons e rest ih =>
    obtain ⟨key, job⟩ := e
    by_cases hk : key = name
    · have := hfit job (by simp [hk])
      simp only [recordRun, hk, if_true, List.map_cons, List.sum_cons, this]
      ring
    · have ih' := ih (fun j hj => hfit j (List.mem_cons_of_mem _ hj))
      simp only [recordRun, hk, if_false, List.map_cons, List.sum_cons, ih']
      ring

theorem recordRun_count (name : String) (d : Int) (m : List (String × Job)) :
    ((recordRun name d m).map (fun kj => kj.2.RunCount)).sum =
      (m.map (fun kj => kj.2.RunCount)).sum + 1 := by
  induction m with
  | nil => simp [recordRun]
  | cons e rest ih =>
    obtain ⟨key, job⟩ := e
    by_cases hk : key = name
    · simp only [recordRun, hk, if_true, List.map_cons, List.sum_cons]
      ring
    · simp only [recordRun, hk, if_false, List.map_cons, List.sum_cons, ih]
      ring

theorem runsNamed_append (name : String) (a b : List WorkflowRun) :
    runsNamed name (a ++ b) = runsNamed name a ++ runsNamed name b := by
  simp [runsNamed]

theorem runsNamed_single_self (r : WorkflowRun) : runsNamed r.Name [r] = [r] := by
  simp [runsNamed]

theorem runsNamed_single_ne (name : String) (r : WorkflowRun) (h : name ≠ r.Name) :
    runsNamed name [r] = [] := by
  have h' : ¬ r.Name = name := fun e => h e.symm
  simp [runsNamed, h']

theorem runsNamed_eq_nil (name : String) (l : List WorkflowRun)
    (h : name ∉ l.map WorkflowRun.Name) : runsNamed name l = [] := by
  simp only [runsNamed, List.filter_eq_nil_iff]
  intro r hr
  simp only [decide_eq_true_eq]
  intro e
  exact h (e ▸ List.mem_map_of_mem _ hr)

/-- One iteration of the loop keeps the invariant while the sums are in range. -/
theorem accumulate_inv (duration : WorkflowRun → Int) (seen : List WorkflowRun) (s : Totals)
    (r : WorkflowRun) (hinv : LoopInv duration seen s) (hr : InRange duration (seen ++ [r])) :
    LoopInv duration (seen ++ [r]) (accumulate duration s r) := by
  have hnamed : ∀ n, wrap64 (durationSum duration (runsNamed n (seen ++ [r]))) =
      durationSum duration (runsNamed n (seen ++ [r])) := fun n =>
    wrap64_of_fits _ (durationSum_fits duration _ (hr.filter _)).1
      (durationSum_fits duration _ (hr.filter _)).2
  have hself : runsNamed r.Name (seen ++ [r]) = runsNamed r.Name seen ++ [r] := by
    rw [runsNamed_append, runsNamed_single_self]
  have hupd : ∀ job, (r.Name, job) ∈ s.jobs →
      wrap64 (job.TotalTime + duration r) = job.TotalTime + duration r := by
    intro job hj
    have e := (hinv.entry _ hj).2.2.2
    simp only at e
    have := hnamed r.Name
    rw [hself, durationSum_append] at this
    simpa [e, durationSum] using this
  refine ⟨?_, ?_, ?_, ?_, ?_, ?_, ?_⟩
  · have := wrap64_of_fits _ (durationSum_fits duration _ hr).1 (durationSum_fits duration _ hr).2
    simp only [accumulate, hinv.total]
    rw [durationSum_append] at this ⊢
    simpa [durationSum] using this
  · simp [accumulate, hinv.count]
  · simp only [accumulate, recordRun_keys]
    split
    · exact hinv.nodup
    · rename_i hn
      rw [List.nodup_append]
      refine ⟨hinv.nodup, List.nodup_singleton _, ?_⟩
      intro a ha hb
      simp only [List.mem_singleton] at hb
      exact hn (hb ▸ ha)
  · intro n
    simp only [accumulate, recordRun_keys, List.map_append, List.map_cons, List.map_nil,
      List.mem_append, List.mem_singleton]
    split
    · rename_i hn
      rw [hinv.keys]
      constructor
      · exact Or.inl
      · rintro (h | h)
        · exact h
        · rw [h]; exact (hinv.keys _).mp hn
    · simp only [List.mem_append, List.mem_singleton, hinv.keys]
  · intro kj hkj
    simp only [accumulate] at hkj
    rcases recordRun_mem _ _ _ hinv.nodup kj hkj with h | h | h
    · obtain ⟨hne, hm⟩ := h
      have := hinv.entry kj hm
      rw [runsNamed_append, runsNamed_single_ne _ _ hne, List.append_nil]
      exact this
    · obtain ⟨hnot, e⟩ := h
      have hnil := runsNamed_eq_nil r.Name seen (fun h => hnot ((hinv.keys _).mpr h))
      subst e
      simp only [hself, hnil, List.nil_append, List.length_singleton, Nat.cast_one]
      simp [durationSum]
    · obtain ⟨job, hj, e⟩ := h
      have hold := hinv.entry _ hj
      simp only at hold
      subst e
      have hu := hupd job hj
      rw [hold.2.2.2] at hu
      simp only [hself, hold.1, hold.2.1, hold.2.2.1, hold.2.2.2, hu,
        durationSum_append, List.length_append, List.length_singleton, Nat.cast_add,
        Nat.cast_one, true_and]
      simp [durationSum]
  · have hsum := recordRun_sum r.Name (duration r) s.jobs hupd
    have := wrap64_of_fits _ (durationSum_fits duration _ hr).1 (durationSum_fits duration _ hr).2
    rw [durationSum_append] at this
    simp only [accumulate, hsum, hinv.jobsSum, hinv.total]
    simpa [durationSum] using this.symm
  · simp only [accumulate, recordRun_count, hinv.jobsCount]

/-- The loop of lines 96-114 establishes the invariant for the whole input. -/
theorem foldl_accumulate_inv (duration : WorkflowRun → Int) (rest seen : List WorkflowRun)
    (s : Totals) (hinv : LoopInv duration seen s) (hr : InRange duration (seen ++ rest)) :
    LoopInv duration (seen ++ rest) (rest.foldl (accumulate duration) s) := by
  induction rest generalizing seen s with
  | nil => simpa using hinv
  | cons r rest ih =>
    have e : seen ++ r :: rest = (seen ++ [r]) ++ rest := by simp
    rw [e] at hr ⊢
    exact ih (seen ++ [r]) _ (accumulate_inv duration seen s r hinv hr.of_append_left) hr

theorem loopInv_init (duration : WorkflowRun → Int) : LoopInv duration [] Totals.init :=
  ⟨rfl, rfl, List.nodup_nil, by simp [Totals.init], by simp [Totals.init], rfl, rfl⟩

theorem loop_inv (duration : WorkflowRun → Int) (runs : List WorkflowRun)
    (hr : InRange duration runs) :
    LoopInv duration runs (runs.foldl (accumulate duration) Totals.init) := by
  have := foldl_accumulate_inv duration runs [] Totals.init (loopInv_init duration) (by simpa using hr)
  simpa using this

theorem tdiv_eq_truncDiv (a : Int) (n : Nat) : Int.tdiv a n = truncDiv a n := by
  unfold truncDiv
  by_cases h : 0 ≤ a
  · obtain ⟨k, rfl⟩ := Int.eq_ofNat_of_zero_le h
    simp only [h, if_true, Int.natAbs_ofNat]
    rw [Int.tdiv_eq_ediv h (Int.ofNat_nonneg n)]
    rfl
  · have h' : 0 ≤ -a := by omega
    obtain ⟨k, hk⟩ := Int.eq_ofNat_of_zero_le h'
    have ha : a = -(k : Int) := by omega
    subst ha
    simp only [h, if_false, Int.neg_tdiv, Int.natAbs_neg, Int.natAbs_ofNat]
    rw [Int.tdiv_eq_ediv (Int.ofNat_nonneg k) (Int.ofNat_nonneg n)]
    rfl

/-- What the task holds after line 120, for runs in range. -/
theorem aggregateRuns_spec (duration : WorkflowRun → Int) (runs : List WorkflowRun)
    (hr : InRange duration runs) :
    (aggregateRuns duration runs).totalTime = durationSum duration runs ∧
    (aggregateRuns duration runs).totalCount = runs.length ∧
    ((convertMapToSlice (aggregateRuns duration runs).jobs).map Job.Name).Nodup ∧
    (∀ n, n ∈ (convertMapToSlice (aggregateRuns duration runs).jobs).map Job.Name ↔
      n ∈ runs.map WorkflowRun.Name) ∧
    (∀ job ∈ convertMapToSlice (aggregateRuns duration runs).jobs,
      job.RunCount = (runsNamed job.Name runs).length ∧ 1 ≤ job.RunCount ∧
      job.TotalTime = durationSum duration (runsNamed job.Name runs) ∧
      job.AvgTime = Int.tdiv job.TotalTime job.RunCount) ∧
    ((convertMapToSlice (aggregateRuns duration runs).jobs).map Job.TotalTime).sum =
      durationSum duration runs := by
  have hinv := loop_inv duration runs hr
  have hpos : ∀ kj ∈ (runs.foldl (accumulate duration) Totals.init).jobs,
      (1 : Int) ≤ kj.2.RunCount := by
    intro kj hkj
    have he := hinv.entry kj hkj
    have hk : kj.1 ∈ runs.map WorkflowRun.Name := (hinv.keys _).mp (List.mem_map_of_mem _ hkj)
    obtain ⟨r, hrm, hrn⟩ := List.mem_map.mp hk
    have : r ∈ runsNamed kj.1 runs := by
      simp [runsNamed, hrm, hrn]
    have hl := List.length_pos_of_mem this
    rw [he.2.2.1]
    exact_mod_cast hl
  have hset : ∀ kj ∈ (runs.foldl (accumulate duration) Totals.init).jobs,
      setAvgTime kj.2 = { kj.2 with AvgTime := Int.tdiv kj.2.TotalTime kj.2.RunCount } := by
    intro kj hkj
    have := hpos kj hkj
    simp only [setAvgTime]
    rw [if_pos (by omega)]
  have hnames : (convertMapToSlice (aggregateRuns duration runs).jobs).map Job.Name =
      (runs.foldl (accumulate duration) Totals.init).jobs.map Prod.fst := by
    simp only [convertMapToSlice, aggregateRuns, List.map_map]
    apply List.map_congr_left
    intro kj hkj
    simp only [Function.comp, hset kj hkj]
    exact (hinv.entry kj hkj).1
  refine ⟨hinv.total, hinv.count, ?_, ?_, ?_, ?_⟩
  · rw [hnames]; exact hinv.nodup
  · intro n; rw [hnames]; exact hinv.keys n
  · intro job hjob
    simp only [convertMapToSlice, aggregateRuns, List.map_map, List.mem_map,
      Function.comp] at hjob
    obtain ⟨kj, hkj, rfl⟩ := hjob
    have he := hinv.entry kj hkj
    have hp := hpos kj hkj
    rw [hset kj hkj]
    simp only [he.1]
    exact ⟨he.2.2.1, hp, he.2.2.2, trivial⟩
  · rw [← hinv.total, ← hinv.jobsSum]
    simp only [convertMapToSlice, aggregateRuns, List.map_map]
    congr 1
    apply List.map_congr_left
    intro kj hkj
    simp only [Function.comp, hset kj hkj]

/-- The run counts of the jobs add up to the number of runs. -/
theorem aggregateRuns_runCount_sum (duration : WorkflowRun → Int) (runs : List WorkflowRun)
    (hr : InRange duration runs) :
    ((convertMapToSlice (aggregateRuns duration runs).jobs).map Job.RunCount).sum =
      runs.length := by
  have hinv := loop_inv duration runs hr
  rw [← hinv.count, ← hinv.jobsCount]
  simp only [convertMapToSlice, aggregateRuns, List.map_map]
  congr 1
  apply List.map_congr_left
  intro kj _
  simp only [Function.comp, setAvgTime]
  split <;> rfl

theorem repoTask_some (duration : WorkflowRun → Int) (repo : Repository)
    (runs : List WorkflowRun) (hne : runs ≠ []) (hr : InRange duration runs) :
    repoTask duration repo runs = some { repo with
      TotalTime := (aggregateRuns duration runs).totalTime
      AvgTime := Int.tdiv (aggregateRuns duration runs).totalTime
        (aggregateRuns duration runs).totalCount
      Jobs := convertMapToSlice (aggregateRuns duration runs).jobs } := by
  have hc := (aggregateRuns_spec duration runs hr).2.1
  have hl : 0 < runs.length := List.length_pos.mpr hne
  unfold repoTask
  simp only
  rw [if_pos (by rw [hc]; exact_mod_cast hl)]

/-- C1: for a non-empty list of runs of one repository, with durations and
length inside the range in which the `int64` sums are exact, the task sends a
repository whose `TotalTime` is the sum of the durations of the runs (negative
ones included, nothing clamped) and whose `AvgTime` is that sum divided by the
number of runs, rounded toward zero. -/
theorem repoTask_total_and_average (duration : WorkflowRun → Int) (repo : Repository)
    (runs : List WorkflowRun) (hne : runs ≠ []) (hr : InRange duration runs) :
    ∃ out, repoTask duration repo runs = some out ∧
      out.TotalTime = durationSum duration runs ∧
      out.AvgTime = truncDiv (durationSum duration runs) runs.length := by
  refine ⟨_, repoTask_some duration repo runs hne hr, ?_, ?_⟩
  · exact (aggregateRuns_spec duration runs hr).1
  · simp only
    rw [(aggregateRuns_spec duration runs hr).1, (aggregateRuns_spec duration runs hr).2.1]
    exact tdiv_eq_truncDiv _ _

/-- C1, on the durations -5 s and -2 s: total -7, average -3. -/
theorem repoTask_total_and_average_witness :
    invertedRuns ≠ [] ∧ InRange exampleDuration invertedRuns ∧
    (∃ out, repoTask exampleDuration exampleRepo invertedRuns = some out ∧
      out.TotalTime = durationSum exampleDuration invertedRuns ∧
      out.AvgTime = truncDiv (durationSum exampleDuration invertedRuns) invertedRuns.length) ∧
    invertedRuns.map exampleDuration = [-5, -2] ∧
    durationSum exampleDuration invertedRuns = -7 ∧
    truncDiv (durationSum exampleDuration invertedRuns) invertedRuns.length = -3 :=
  ⟨by decide, by unfold InRange; decide,
    repoTask_total_and_average exampleDuration exampleRepo invertedRuns (by decide)
      (by unfold InRange; decide),
    by decide, by decide, by decide⟩

/-- C2: for the runs of one repository (in the range in which the `int64` sums are
exact), the `TotalTime` of the jobs that `convertMapToSlice` returns, in whatever
order the map is iterated, add up to the total of the repository, which is the
`TotalTime` of the repository sent whenever one is sent; and the `RunCount` of
the jobs add up to the number of runs, each run being counted in one job. -/
theorem jobs_total_eq_repo_total (duration : WorkflowRun → Int) (repo : Repository)
    (runs : List WorkflowRun) (hr : InRange duration runs) (jobs : List Job)
    (hperm : jobs.Perm (convertMapToSlice (aggregateRuns duration runs).jobs)) :
    (jobs.map Job.TotalTime).sum = (aggregateRuns duration runs).totalTime ∧
    (jobs.map Job.TotalTime).sum = durationSum duration runs ∧
    (jobs.map Job.RunCount).sum = runs.length ∧
    (∀ out, repoTask duration repo runs = some out →
      out.Jobs = convertMapToSlice (aggregateRuns duration runs).jobs ∧
      (jobs.map Job.TotalTime).sum = out.TotalTime) ∧
    (runs ≠ [] → (repoTask duration repo runs).isSome = true) := by
  have hs := aggregateRuns_spec duration runs hr
  have hsum : (jobs.map Job.TotalTime).sum = durationSum duration runs := by
    rw [(hperm.map Job.TotalTime).sum_eq]; exact hs.2.2.2.2.2
  have hcount : (jobs.map Job.RunCount).sum = runs.length := by
    rw [(hperm.map Job.RunCount).sum_eq]; exact aggregateRuns_runCount_sum duration runs hr
  refine ⟨by rw [hsum, hs.1], hsum, hcount, ?_, ?_⟩
  · intro out hout
    unfold repoTask at hout
    simp only at hout
    split at hout
    · simp only [Option.some.injEq] at hout
      subst hout
      exact ⟨rfl, by rw [hsum, hs.1]⟩
    · exact absurd hout (by simp)
  · intro hne
    rw [repoTask_some duration repo runs hne hr]
    rfl

/-- C2, on the runs build 10 s, build 20 s, test 5 s with the jobs listed as
test, build: 5 + 30 = 35. -/
theorem jobs_total_eq_repo_total_witness :
    InRange exampleDuration exampleRuns ∧
    [({ Name := "test", TotalTime := 5, AvgTime := 5, RunCount := 1 } : Job),
      { Name := "build", TotalTime := 30, AvgTime := 15, RunCount := 2 }].Perm
      (convertMapToSlice (aggregateRuns exampleDuration exampleRuns).jobs) ∧
    (aggregateRuns exampleDuration exampleRuns).totalTime = 35 ∧
    (repoTask exampleDuration exampleRepo exampleRuns).isSome = true :=
  have hr : InRange exampleDuration exampleRuns := by unfold InRange; decide
  have hp : [({ Name := "test", TotalTime := 5, AvgTime := 5, RunCount := 1 } : Job),
      { Name := "build", TotalTime := 30, AvgTime := 15, RunCount := 2 }].Perm
      (convertMapToSlice (aggregateRuns exampleDuration exampleRuns).jobs) := by decide
  have h := jobs_total_eq_repo_total exampleDuration exampleRepo exampleRuns hr _ hp
  ⟨hr, hp, by rw [← h.1]; decide, h.2.2.2.2 (by decide)⟩

/-- C3: for the runs of one repository (in the range in which the `int64` sums are
exact), the jobs that `convertMapToSlice` returns, in whatever order the map is
iterated, are one per run name: their names are pairwise distinct and are exactly
the names occurring among the runs, and each job has as `RunCount` the number of
runs of its name (at least 1), as `TotalTime` the sum of their durations and as
`AvgTime` that sum divided by that number, rounded toward zero.  These are the
`Jobs` of the repository sent. -/
theorem jobs_one_per_run_name (duration : WorkflowRun → Int) (repo : Repository)
    (runs : List WorkflowRun) (hr : InRange duration runs) (jobs : List Job)
    (hperm : jobs.Perm (convertMapToSlice (aggregateRuns duration runs).jobs)) :
    (jobs.map Job.Name).Nodup ∧
    (∀ n, n ∈ jobs.map Job.Name ↔ n ∈ runs.map WorkflowRun.Name) ∧
    (∀ job ∈ jobs,
      job.RunCount = (runsNamed job.Name runs).length ∧ 1 ≤ job.RunCount ∧
      job.TotalTime = durationSum duration (runsNamed job.Name runs) ∧
      job.AvgTime = truncDiv job.TotalTime (runsNamed job.Name runs).length) ∧
    (∀ out, repoTask duration repo runs = some out →
      out.Jobs = convertMapToSlice (aggregateRuns duration runs).jobs) := by
  have hs := aggregateRuns_spec duration runs hr
  refine ⟨?_, ?_, ?_, ?_⟩
  · exact ((hperm.map Job.Name).nodup_iff).mpr hs.2.2.1
  · intro n
    rw [(hperm.map Job.Name).mem_iff]
    exact hs.2.2.2.1 n
  · intro job hjob
    have h := hs.2.2.2.2.1 job (hperm.mem_iff.mp hjob)
    refine ⟨h.1, h.2.1, h.2.2.1, ?_⟩
    rw [h.2.2.2, h.1]
    exact tdiv_eq_truncDiv _ _
  · intro out hout
    unfold repoTask at hout
    simp only at hout
    split at hout
    · simp only [Option.some.injEq] at hout
      subst hout
      rfl
    · exact absurd hout (by simp)

/-- C3, on the runs build 10 s, build 20 s, test 5 s: the jobs are build with
30, 15, 2 and test with 5, 5, 1, and the repository has total 35 and average 11. -/
theorem jobs_one_per_run_name_witness :
    ([({ Name := "build", TotalTime := 30, AvgTime := 15, RunCount := 2 } : Job),
      { Name := "test", TotalTime := 5, AvgTime := 5, RunCount := 1 }].map Job.Name).Nodup ∧
    (∀ n, n ∈ [({ Name := "build", TotalTime := 30, AvgTime := 15, RunCount := 2 } : Job),
        { Name := "test", TotalTime := 5, AvgTime := 5, RunCount := 1 }].map Job.Name ↔
      n ∈ exampleRuns.map WorkflowRun.Name) ∧
    repoTask exampleDuration exampleRepo exampleRuns =
      some { Name := "A", TotalTime := 35, AvgTime := 11,
             Jobs := [{ Name := "build", TotalTime := 30, AvgTime := 15, RunCount := 2 },
                      { Name := "test", TotalTime := 5, AvgTime := 5, RunCount := 1 }] } :=
  have h := jobs_one_per_run_name exampleDuration exampleRepo exampleRuns
    (by unfold InRange; decide)
    [{ Name := "build", TotalTime := 30, AvgTime := 15, RunCount := 2 },
     { Name := "test", TotalTime := 5, AvgTime := 5, RunCount := 1 }] (by decide)
  ⟨h.1, h.2.1, by decide⟩

/-! ## Paginators: termination and results -/

theorem pagesFrom_succ {α ε : Type} (fetch : Nat → List α × Option ε) (first count : Nat) :
    pagesFrom fetch first (count + 1) = (fetch first).1 ++ pagesFrom fetch (first + 1) count := by
  simp [pagesFrom, List.range'_succ]

theorem getRepositoriesLoop_ok {ε : Type} (fetch : Nat → List Repository × Option ε) (k : Nat) :
    ∀ (page fuel : Nat) (allRepos : List Repository) (calls : List Nat),
      (∀ i, page ≤ i → i < page + k → (fetch i).2 = none ∧ (fetch i).1 ≠ []) →
      fetch (page + k) = ([], none) → k + 1 ≤ fuel →
      getRepositoriesLoop fetch fuel page allRepos calls =
        some { repos := allRepos ++ pagesFrom fetch page k, err := none,
               calls := calls ++ List.range' page (k + 1) } := by
  induction k with
  | zero =>
    intro page fuel allRepos calls _ hend hfuel
    obtain ⟨f, rfl⟩ : ∃ f, fuel = f + 1 := ⟨fuel - 1, by omega⟩
    simp only [Nat.add_zero] at hend
    simp [getRepositoriesLoop, hend, pagesFrom]
  | succ k ih =>
    intro page fuel allRepos calls hpages hend hfuel
    obtain ⟨f, rfl⟩ : ∃ f, fuel = f + 1 := ⟨fuel - 1, by omega⟩
    have h0 := hpages page (le_refl _) (by omega)
    have hrec := ih (page + 1) f (allRepos ++ (fetch page).1) (calls ++ [page])
      (fun i h1 h2 => hpages i (by omega) (by omega))
      (by rw [← hend]; congr 1; omega) (by omega)
    have hlen : (fetch page).1.length ≠ 0 := fun h => h0.2 (List.length_eq_zero.mp h)
    rw [getRepositoriesLoop]
    rcases hf : fetch page with ⟨items, e⟩
    rw [hf] at h0 hlen hrec
    simp only at h0 hlen hrec
    obtain ⟨rfl, _⟩ := h0
    simp only [hlen, if_false, hrec, pagesFrom_succ, hf, List.append_assoc]
    simp [List.range'_succ page]

theorem getWorkflowRunsLoop_ok {ε : Type} (fetch : Nat → List WorkflowRun × Option ε) (k : Nat) :
    ∀ (page fuel : Nat) (allRuns : List WorkflowRun) (calls found : List Nat),
      (∀ i, page ≤ i → i < page + k → (fetch i).2 = none ∧ (fetch i).1 ≠ []) →
      fetch (page + k) = ([], none) → k + 1 ≤ fuel →
      getWorkflowRunsLoop fetch fuel page allRuns calls found =
        some { runs := allRuns ++ pagesFrom fetch page k, err := none,
               calls := calls ++ List.range' page (k + 1),
               found := found ++ (List.range' page (k + 1)).map (fun i => (fetch i).1.length) } := by
  induction k with
  | zero =>
    intro page fuel allRuns calls found _ hend hfuel
    obtain ⟨f, rfl⟩ : ∃ f, fuel = f + 1 := ⟨fuel - 1, by omega⟩
    simp only [Nat.add_zero] at hend
    simp [getWorkflowRunsLoop, hend, pagesFrom]
  | succ k ih =>
    intro page fuel allRuns calls found hpages hend hfuel
    obtain ⟨f, rfl⟩ : ∃ f, fuel = f + 1 := ⟨fuel - 1, by omega⟩
    have h0 := hpages page (le_refl _) (by omega)
    have hrec := ih (page + 1) f (allRuns ++ (fetch page).1) (calls ++ [page])
      (found ++ [(fetch page).1.length])
      (fun i h1 h2 => hpages i (by omega) (by omega))
      (by rw [← hend]; congr 1; omega) (by omega)
    have hlen : (fetch page).1.length ≠ 0 := fun h => h0.2 (List.length_eq_zero.mp h)
    rw [getWorkflowRunsLoop]
    rcases hf : fetch page with ⟨items, e⟩
    rw [hf] at h0 hlen hrec
    simp only at h0 hlen hrec
    obtain ⟨rfl, _⟩ := h0
    simp only [hlen, if_false, hrec, pagesFrom_succ, hf, List.append_assoc]
    simp [List.range'_succ page, hf]

theorem getRepositoriesLoop_err {ε : Type} (fetch : Nat → List Repository × Option ε) (e : ε)
    (k : Nat) :
    ∀ (page fuel : Nat) (allRepos : List Repository) (calls : List Nat),
      (∀ i, page ≤ i → i < page + k → (fetch i).2 = none ∧ (fetch i).1 ≠ []) →
      (fetch (page + k)).2 = some e → k + 1 ≤ fuel →
      getRepositoriesLoop fetch fuel page allRepos calls =
        some { repos := [], err := some e, calls := calls ++ List.range' page (k + 1) } := by
  induction k with
  | zero =>
    intro page fuel allRepos calls _ hend hfuel
    obtain ⟨f, rfl⟩ : ∃ f, fuel = f + 1 := ⟨fuel - 1, by omega⟩
    simp only [Nat.add_zero] at hend
    rw [getRepositoriesLoop]
    rcases hf : fetch page with ⟨items, e'⟩
    rw [hf] at hend
    simp only at hend
    subst hend
    simp
  | succ k ih =>
    intro page fuel allRepos calls hpages hend hfuel
    obtain ⟨f, rfl⟩ : ∃ f, fuel = f + 1 := ⟨fuel - 1, by omega⟩
    have h0 := hpages page (le_refl _) (by omega)
    have hrec := ih (page + 1) f (allRepos ++ (fetch page).1) (calls ++ [page])
      (fun i h1 h2 => hpages i (by omega) (by omega))
      (by rw [← hend]; congr 2; omega) (by omega)
    have hlen : (fetch page).1.length ≠ 0 := fun h => h0.2 (List.length_eq_zero.mp h)
    rw [getRepositoriesLoop]
    rcases hf : fetch page with ⟨items, e'⟩
    rw [hf] at h0 hlen hrec
    simp only at h0 hlen hrec
    obtain ⟨rfl, _⟩ := h0
    simp only [hlen, if_false, hrec, List.append_assoc]
    simp [List.range'_succ page]

theorem getWorkflowRunsLoop_err {ε : Type} (fetch : Nat → List WorkflowRun × Option ε) (e : ε)
    (k : Nat) :
    ∀ (page fuel : Nat) (allRuns : List WorkflowRun) (calls found : List Nat),
      (∀ i, page ≤ i → i < page + k → (fetch i).2 = none ∧ (fetch i).1 ≠ []) →
      (fetch (page + k)).2 = some e → k + 1 ≤ fuel →
      getWorkflowRunsLoop fetch fuel page allRuns calls found =
        some { runs := [], err := some e, calls := calls ++ List.range' page (k + 1),
               found := found ++ (List.range' page k).map (fun i => (fetch i).1.length) } := by
  induction k with
  | zero =>
    intro page fuel allRuns calls found _ hend hfuel
    obtain ⟨f, rfl⟩ : ∃ f, fuel = f + 1 := ⟨fuel - 1, by omega⟩
    simp only [Nat.add_zero] at hend
    rw [getWorkflowRunsLoop]
    rcases hf : fetch page with ⟨items, e'⟩
    rw [hf] at hend
    simp only at hend
    subst hend
    simp
  | succ k ih =>
    intro page fuel allRuns calls found hpages hend hfuel
    obtain ⟨f, rfl⟩ : ∃ f, fuel = f + 1 := ⟨fuel - 1, by omega⟩
    have h0 := hpages page (le_refl _) (by omega)
    have hrec := ih (page + 1) f (allRuns ++ (fetch page).1) (calls ++ [page])
      (found ++ [(fetch page).1.length])
      (fun i h1 h2 => hpages i (by omega) (by omega))
      (by rw [← hend]; congr 2; omega) (by omega)
    have hlen : (fetch page).1.length ≠ 0 := fun h => h0.2 (List.length_eq_zero.mp h)
    rw [getWorkflowRunsLoop]
    rcases hf : fetch page with ⟨items, e'⟩
    rw [hf] at h0 hlen hrec
    simp only at h0 hlen hrec
    obtain ⟨rfl, _⟩ := h0
    simp only [hlen, if_false, hrec, List.append_assoc]
    simp [List.range'_succ page, hf]

/-- C6: a fetcher with non-empty, error-free pages 1..k and an empty page k+1
makes `getWorkflowRuns`, and likewise `getRepositories`, request exactly the
pages 1, 2, ..., k+1 in that order, stop (any fuel of at least k+1 iterations is
enough), and return without error the pages 1..k concatenated in call order. -/
theorem paginator_collects_all_pages {ε : Type}
    (fetchWorkflowRunsPage : Nat → List WorkflowRun × Option ε)
    (fetchRepositoriesPage : Nat → List Repository × Option ε) (kw kr fuelw fuelr : Nat)
    (hw : ∀ i, 1 ≤ i → i ≤ kw →
      (fetchWorkflowRunsPage i).2 = none ∧ (fetchWorkflowRunsPage i).1 ≠ [])
    (hwEnd : fetchWorkflowRunsPage (kw + 1) = ([], none)) (hwFuel : kw + 1 ≤ fuelw)
    (hr : ∀ i, 1 ≤ i → i ≤ kr →
      (fetchRepositoriesPage i).2 = none ∧ (fetchRepositoriesPage i).1 ≠ [])
    (hrEnd : fetchRepositoriesPage (kr + 1) = ([], none)) (hrFuel : kr + 1 ≤ fuelr) :
    (∃ res, getWorkflowRuns fetchWorkflowRunsPage fuelw = some res ∧
      res.calls = List.range' 1 (kw + 1) ∧ res.calls.length = kw + 1 ∧ res.err = none ∧
      res.runs = ((List.range' 1 kw).map (fun i => (fetchWorkflowRunsPage i).1)).flatten) ∧
    (∃ res, getRepositories fetchRepositoriesPage fuelr = some res ∧
      res.calls = List.range' 1 (kr + 1) ∧ res.calls.length = kr + 1 ∧ res.err = none ∧
      res.repos = ((List.range' 1 kr).map (fun i => (fetchRepositoriesPage i).1)).flatten) := by
  constructor
  · refine ⟨_, getWorkflowRunsLoop_ok fetchWorkflowRunsPage kw 1 fuelw [] [] []
      (fun i h1 h2 => hw i h1 (by omega)) (by rw [Nat.add_comm 1 kw]; exact hwEnd) hwFuel, ?_⟩
    simp [pagesFrom]
  · refine ⟨_, getRepositoriesLoop_ok fetchRepositoriesPage kr 1 fuelr [] []
      (fun i h1 h2 => hr i h1 (by omega)) (by rw [Nat.add_comm 1 kr]; exact hrEnd) hrFuel, ?_⟩
    simp [pagesFrom]

/-- C6, on a runs fetcher with two non-empty pages and a repositories fetcher with
one: pages 1, 2, 3 and 1, 2 are requested. -/
theorem paginator_collects_all_pages_witness :
    (∃ res, getWorkflowRuns exampleRunPages 3 = some res ∧
      res.calls = List.range' 1 (2 + 1) ∧ res.calls.length = 2 + 1 ∧ res.err = none ∧
      res.runs = ((List.range' 1 2).map (fun i => (exampleRunPages i).1)).flatten) ∧
    (∃ res, getRepositories exampleRepoPages 2 = some res ∧
      res.calls = List.range' 1 (1 + 1) ∧ res.calls.length = 1 + 1 ∧ res.err = none ∧
      res.repos = ((List.range' 1 1).map (fun i => (exampleRepoPages i).1)).flatten) ∧
    (getWorkflowRuns exampleRunPages 3).map (fun res => res.calls) = some [1, 2, 3] ∧
    (getWorkflowRuns exampleRunPages 3).map (fun res => res.runs.length) = some 3 :=
  have h := paginator_collects_all_pages exampleRunPages exampleRepoPages 2 1 3 2
    (by intro i h1 h2; interval_cases i <;> simp [exampleRunPages]) rfl (by decide)
    (by intro i h1 h2; interval_cases i; simp [exampleRepoPages]) rfl (by decide)
  ⟨h.1, h.2, by decide, by decide⟩

/-- C8: a fetcher whose pages 1..p-1 are non-empty and error-free and whose page p
returns an error makes `getWorkflowRuns`, and likewise `getRepositories`, return
that error with a nil slice after requesting exactly the pages 1, ..., p, each
once and in that order (any fuel of at least p iterations is enough). -/
theorem paginator_returns_first_error {ε : Type}
    (fetchWorkflowRunsPage : Nat → List WorkflowRun × Option ε)
    (fetchRepositoriesPage : Nat → List Repository × Option ε) (ew er : ε)
    (pw pr fuelw fuelr : Nat) (hpw : 1 ≤ pw)
    (hw : ∀ i, 1 ≤ i → i < pw →
      (fetchWorkflowRunsPage i).2 = none ∧ (fetchWorkflowRunsPage i).1 ≠ [])
    (hwErr : (fetchWorkflowRunsPage pw).2 = some ew) (hwFuel : pw ≤ fuelw) (hpr : 1 ≤ pr)
    (hr : ∀ i, 1 ≤ i → i < pr →
      (fetchRepositoriesPage i).2 = none ∧ (fetchRepositoriesPage i).1 ≠ [])
    (hrErr : (fetchRepositoriesPage pr).2 = some er) (hrFuel : pr ≤ fuelr) :
    (∃ res, getWorkflowRuns fetchWorkflowRunsPage fuelw = some res ∧
      res.err = some ew ∧ res.runs = [] ∧
      res.calls = List.range' 1 pw ∧ res.calls.length = pw) ∧
    (∃ res, getRepositories fetchRepositoriesPage fuelr = some res ∧
      res.err = some er ∧ res.repos = [] ∧
      res.calls = List.range' 1 pr ∧ res.calls.length = pr) := by
  obtain ⟨kw, rfl⟩ : ∃ k, pw = k + 1 := ⟨pw - 1, by omega⟩
  obtain ⟨kr, rfl⟩ : ∃ k, pr = k + 1 := ⟨pr - 1, by omega⟩
  constructor
  · refine ⟨_, getWorkflowRunsLoop_err fetchWorkflowRunsPage ew kw 1 fuelw [] [] []
      (fun i h1 h2 => hw i h1 (by omega)) (by rw [Nat.add_comm 1 kw]; exact hwErr) hwFuel, ?_⟩
    simp
  · refine ⟨_, getRepositoriesLoop_err fetchRepositoriesPage er kr 1 fuelr [] []
      (fun i h1 h2 => hr i h1 (by omega)) (by rw [Nat.add_comm 1 kr]; exact hrErr) hrFuel, ?_⟩
    simp

/-- C8, on a runs fetcher failing on page 2 and a repositories fetcher failing on
page 1. -/
theorem paginator_returns_first_error_witness :
    (∃ res, getWorkflowRuns failingRunPages 2 = some res ∧
      res.err = some "unexpected EOF" ∧ res.runs = [] ∧
      res.calls = List.range' 1 2 ∧ res.calls.length = 2) ∧
    (∃ res, getRepositories failingRepoPages 1 = some res ∧
      res.err = some "connection refused" ∧ res.repos = [] ∧
      res.calls = List.range' 1 1 ∧ res.calls.length = 1) ∧
    (getWorkflowRuns failingRunPages 2).map (fun res => res.calls) = some [1, 2] :=
  have h := paginator_returns_first_error failingRunPages failingRepoPages
    "unexpected EOF" "connection refused" 2 1 2 1 (by decide)
    (by intro i h1 h2; interval_cases i; simp [failingRunPages]) rfl (by decide) (by decide)
    (by intro i h1 h2; omega) rfl (by decide)
  ⟨h.1, h.2, by decide⟩

/-! ## Sorting of the report -/

theorem insertLess_perm {α : Type} (less : α → α → Bool) (x : α) (l : List α) :
    (insertLess less x l).Perm (x :: l) := by
  induction l with
  | nil => simp [insertLess]
  | cons y ys ih =>
    simp only [insertLess]
    split
    · exact (ih.cons y).trans (List.Perm.swap x y ys)
    · exact List.Perm.refl _

theorem foldl_insertLess_perm {α : Type} (less : α → α → Bool) (s acc : List α) :
    (s.foldl (fun sortedRev x => insertLess less x sortedRev) acc).Perm (s ++ acc) := by
  induction s generalizing acc with
  | nil => simp
  | cons x xs ih =>
    simp only [List.foldl_cons, List.cons_append]
    exact ((ih _).trans ((insertLess_perm less x acc).append_left xs)).trans List.perm_middle

theorem sortSlice_perm {α : Type} (less : α → α → Bool) (s : List α) :
    (sortSlice less s).Perm s := by
  unfold sortSlice
  refine (List.reverse_perm _).trans ?_
  simpa using foldl_insertLess_perm less s []

/-- The sorted part, read back to front, ascends in `TotalTime`. -/
theorem insertLess_ascending (x : Repository) (l : List Repository)
    (h : l.Pairwise (fun a b => a.TotalTime ≤ b.TotalTime)) :
    (insertLess lessTotalTime x l).Pairwise (fun a b => a.TotalTime ≤ b.TotalTime) := by
  induction l with
  | nil => simp [insertLess]
  | cons y ys ih =>
    rw [List.pairwise_cons] at h
    simp only [insertLess]
    split
    · rename_i hlt
      simp only [lessTotalTime, decide_eq_true_eq] at hlt
      rw [List.pairwise_cons]
      refine ⟨?_, ih h.2⟩
      intro a ha
      rcases List.mem_cons.mp ((insertLess_perm lessTotalTime x ys).mem_iff.mp ha) with e | e
      · rw [e]; omega
      · exact h.1 a e
    · rename_i hlt
      simp only [lessTotalTime, decide_eq_true_eq, not_lt] at hlt
      rw [List.pairwise_cons]
      refine ⟨?_, List.pairwise_cons.mpr h⟩
      intro a ha
      rcases List.mem_cons.mp ha with e | e
      · rw [e]; omega
      · have := h.1 a e; omega

theorem foldl_insertLess_ascending (s acc : List Repository)
    (h : acc.Pairwise (fun a b => a.TotalTime ≤ b.TotalTime)) :
    (s.foldl (fun sortedRev x => insertLess lessTotalTime x sortedRev) acc).Pairwise
      (fun a b => a.TotalTime ≤ b.TotalTime) := by
  induction s generalizing acc with
  | nil => simpa using h
  | cons x xs ih => exact ih _ (insertLess_ascending x acc h)

theorem sortSlice_descending (s : List Repository) :
    (sortSlice lessTotalTime s).Pairwise (fun a b => b.TotalTime ≤ a.TotalTime) := by
  unfold sortSlice
  rw [List.pairwise_reverse]
  exact foldl_insertLess_ascending s [] List.Pairwise.nil

theorem adjacent_of_pairwise (l : List Repository)
    (h : l.Pairwise (fun a b => b.TotalTime ≤ a.TotalTime)) (i : Nat) (a b : Repository)
    (ha : l[i]? = some a) (hb : l[i + 1]? = some b) : b.TotalTime ≤ a.TotalTime := by
  obtain ⟨hi, rfl⟩ := List.getElem?_eq_some_iff.mp ha
  obtain ⟨hj, rfl⟩ := List.getElem?_eq_some_iff.mp hb
  exact List.pairwise_iff_getElem.mp h i (i + 1) hi hj (by omega)

/-- C7: the `repos` of the report are a rearrangement of the repositories
collected and descend in `TotalTime`: of two neighbours the earlier has a
`TotalTime` at least that of the later. -/
theorem report_sorted_by_total_time (org : String) (collected : List Repository) :
    (assembleReport org collected).Repos.Perm collected ∧
    (∀ (i : Nat) (a b : Repository), (assembleReport org collected).Repos[i]? = some a →
      (assembleReport org collected).Repos[i + 1]? = some b → b.TotalTime ≤ a.TotalTime) :=
  ⟨sortSlice_perm _ _, adjacent_of_pairwise _ (sortSlice_descending collected)⟩

/-- C7, on `A` with total 100 and `B` with total 50: in either order of arrival
the report lists `A`, then `B`. -/
theorem report_sorted_by_total_time_witness :
    (assembleReport "org" [repoB50, repoA100]).Repos = [repoA100, repoB50] ∧
    (assembleReport "org" [repoA100, repoB50]).Repos = [repoA100, repoB50] ∧
    (assembleReport "org" [repoB50, repoA100]).Repos.Perm [repoB50, repoA100] ∧
    repoB50.TotalTime ≤ repoA100.TotalTime :=
  ⟨by decide, by decide, (report_sorted_by_total_time "org" [repoB50, repoA100]).1,
    (report_sorted_by_total_time "org" [repoB50, repoA100]).2 0 repoA100 repoB50
      (by decide) (by decide)⟩

/-! ## Fan-out: which repositories reach the report -/

theorem foldl_accumulate_count (duration : WorkflowRun → Int) (runs : List WorkflowRun)
    (s : Totals) :
    (runs.foldl (accumulate duration) s).totalCount = s.totalCount + runs.length := by
  induction runs generalizing s with
  | nil => simp
  | cons r rest ih =>
    simp only [List.foldl_cons, ih, accumulate, List.length_cons, Nat.cast_add, Nat.cast_one]
    ring

theorem aggregateRuns_count (duration : WorkflowRun → Int) (runs : List WorkflowRun) :
    (aggregateRuns duration runs).totalCount = runs.length := by
  simp [aggregateRuns, foldl_accumulate_count, Totals.init]

theorem repoTask_nil (duration : WorkflowRun → Int) (repo : Repository) :
    repoTask duration repo [] = none := by
  simp [repoTask, aggregateRuns, Totals.init]

theorem repoTask_of_ne_nil (duration : WorkflowRun → Int) (repo : Repository)
    (runs : List WorkflowRun) (hne : runs ≠ []) :
    ∃ out, repoTask duration repo runs = some out ∧ out.Name = repo.Name := by
  have hl : 0 < runs.length := List.length_pos.mpr hne
  unfold repoTask
  simp only
  rw [if_pos (by rw [aggregateRuns_count]; exact_mod_cast hl)]
  exact ⟨_, rfl, rfl⟩

theorem repoTask_name (duration : WorkflowRun → Int) (repo out : Repository)
    (runs : List WorkflowRun) (h : repoTask duration repo runs = some out) :
    out.Name = repo.Name ∧ runs ≠ [] := by
  by_cases hne : runs = []
  · subst hne; rw [repoTask_nil] at h; exact absurd h (by simp)
  · obtain ⟨o, ho, hn⟩ := repoTask_of_ne_nil duration repo runs hne
    rw [ho] at h
    simp only [Option.some.injEq] at h
    subst h
    exact ⟨hn, hne⟩

theorem runTasks_of_no_error {ε : Type} (duration : WorkflowRun → Int)
    (fetch : String → Nat → List WorkflowRun × Option ε) (fuel : Nat)
    (runsOf : String → List WorkflowRun) (repos : List Repository)
    (hfetch : ∀ repo ∈ repos, ∃ res, getWorkflowRuns (fetch repo.Name) fuel = some res ∧
      res.err = none ∧ res.runs = runsOf repo.Name) :
    runTasks duration fetch fuel repos = some (repos.map (fun repo =>
      { err := none, sent := repoTask duration repo (runsOf repo.Name) })) := by
  induction repos with
  | nil => rfl
  | cons repo rest ih =>
    obtain ⟨res, h1, h2, h3⟩ := hfetch repo (List.mem_cons_self _ _)
    have hp : pipeline duration fetch fuel repo =
        some { err := none, sent := repoTask duration repo (runsOf repo.Name) } := by
      simp only [pipeline, h1, h2, h3]
    simp only [runTasks, hp, ih (fun r hr => hfetch r (List.mem_cons_of_mem _ hr)),
      List.map_cons]

theorem sent_names (duration : WorkflowRun → Int) (runsOf : String → List WorkflowRun)
    (repos : List Repository) (x : Repository)
    (hx : x ∈ repos.filterMap (fun repo => repoTask duration repo (runsOf repo.Name))) :
    x.Name ∈ repos.map Repository.Name := by
  obtain ⟨repo, hrepo, hsome⟩ := List.mem_filterMap.mp hx
  rw [(repoTask_name duration repo x _ hsome).1]
  exact List.mem_map_of_mem _ hrepo

theorem sent_count (duration : WorkflowRun → Int) (runsOf : String → List WorkflowRun)
    (repos : List Repository) (hnames : (repos.map Repository.Name).Nodup) :
    ∀ repo ∈ repos,
      (repos.filterMap (fun r => repoTask duration r (runsOf r.Name))).countP
        (fun x => x.Name = repo.Name) = if runsOf repo.Name = [] then 0 else 1 := by
  induction repos with
  | nil => intro repo h; exact absurd h (List.not_mem_nil _)
  | cons r rest ih =>
    intro repo hrepo
    simp only [List.map_cons, List.nodup_cons] at hnames
    have hrest : ∀ x ∈ rest.filterMap (fun r => repoTask duration r (runsOf r.Name)),
        x.Name ≠ r.Name := by
      intro x hx e
      exact hnames.1 (e ▸ sent_names duration runsOf rest x hx)
    by_cases hr : repo.Name = r.Name
    · have hzero : (rest.filterMap (fun r => repoTask duration r (runsOf r.Name))).countP
          (fun x => x.Name = repo.Name) = 0 := by
        rw [List.countP_eq_zero]
        intro x hx
        simpa [hr] using hrest x hx
      by_cases hnil : runsOf r.Name = []
      · simp only [List.filterMap_cons, hnil, repoTask_nil, hr, hzero, if_true]
        rw [← hr]; exact hzero
      · obtain ⟨out, hout, hname⟩ := repoTask_of_ne_nil duration r _ hnil
        simp only [List.filterMap_cons, hout, List.countP_cons, hzero, hr, hnil, if_false,
          hname, decide_True, if_true]
        rw [← hr, hzero]
    · have hmem : repo ∈ rest := by
        rcases List.mem_cons.mp hrepo with e | e
        · exact absurd (by rw [e]) hr
        · exact e
      have hih := ih hnames.2 repo hmem
      cases hsent : repoTask duration r (runsOf r.Name) with
      | none => simp only [List.filterMap_cons, hsent]; exact hih
      | some out =>
        have hname := (repoTask_name duration r out _ hsent).1
        have hne : ¬ out.Name = repo.Name := fun e => hr (by rw [← e, hname])
        simp only [List.filterMap_cons, hsent, List.countP_cons, hne, decide_False]
        simpa using hih

/-- C5: when every fetch succeeds (each paginator returning within the fuel, with
the runs `runsOf` of its repository), the report is a rearrangement of the
repositories that have at least one run, each completed by its task; it has at
most as many entries as there are input repositories, every entry carries the
name of an input repository, and, the input names being distinct, an input
repository is listed once if it has a run and not at all if it has none. -/
theorem report_lists_repos_with_runs {ε : Type} (duration : WorkflowRun → Int)
    (fetchWorkflowRunsPage : String → Nat → List WorkflowRun × Option ε) (fuel : Nat)
    (org : String) (repos : List Repository) (arrival : List Repository → List Repository)
    (runsOf : String → List WorkflowRun)
    (harrival : ∀ l, (arrival l).Perm l)
    (hfetch : ∀ repo ∈ repos, ∃ res,
      getWorkflowRuns (fetchWorkflowRunsPage repo.Name) fuel = some res ∧
      res.err = none ∧ res.runs = runsOf repo.Name) :
    ∃ out, analyzeExecutionTime duration fetchWorkflowRunsPage fuel org repos arrival = some out ∧
      out.taskErrors = [] ∧
      out.report.Repos.Perm
        (repos.filterMap (fun repo => repoTask duration repo (runsOf repo.Name))) ∧
      out.report.Repos.length ≤ repos.length ∧
      (∀ x ∈ out.report.Repos, x.Name ∈ repos.map Repository.Name) ∧
      ((repos.map Repository.Name).Nodup → ∀ repo ∈ repos,
        out.report.Repos.countP (fun x => x.Name = repo.Name) =
          if runsOf repo.Name = [] then 0 else 1) := by
  have hrun := runTasks_of_no_error duration fetchWorkflowRunsPage fuel runsOf repos hfetch
  have hsent : (repos.map (fun repo =>
      (⟨none, repoTask duration repo (runsOf repo.Name)⟩ : TaskResult ε))).filterMap
        (fun r => r.sent) =
      repos.filterMap (fun repo => repoTask duration repo (runsOf repo.Name)) := by
    rw [List.filterMap_map]; rfl
  have herr : (repos.map (fun repo =>
      (⟨none, repoTask duration repo (runsOf repo.Name)⟩ : TaskResult ε))).filterMap
        (fun r => r.err) = [] := by
    rw [List.filterMap_map, List.filterMap_eq_nil_iff]
    intro a _; rfl
  have hperm : (assembleReport org (arrival
      (repos.filterMap (fun repo => repoTask duration repo (runsOf repo.Name))))).Repos.Perm
      (repos.filterMap (fun repo => repoTask duration repo (runsOf repo.Name))) :=
    (sortSlice_perm _ _).trans (harrival _)
  have hout : analyzeExecutionTime duration fetchWorkflowRunsPage fuel org repos arrival =
      some { taskErrors := [], report := assembleReport org (arrival
        (repos.filterMap (fun repo => repoTask duration repo (runsOf repo.Name)))) } := by
    simp only [analyzeExecutionTime, hrun, hsent, herr]
  refine ⟨_, hout, rfl, hperm, ?_, ?_, ?_⟩
  · rw [hperm.length_eq]
    exact List.length_filterMap_le _ _
  · intro x hx
    exact sent_names duration runsOf repos x (hperm.mem_iff.mp hx)
  · intro hnames repo hrepo
    rw [hperm.countP_eq]
    exact sent_count duration runsOf repos hnames repo hrepo

/-- C5, on the repositories `A` (three runs), `B` (one run) and `C` (no run), with
arrival in reverse order: the report lists `A` and `B` once each and not `C`. -/
theorem report_lists_repos_with_runs_witness :
    (∃ out, analyzeExecutionTime exampleDuration allSucceed 2 "org" exampleRepos List.reverse
        = some out ∧
      out.taskErrors = [] ∧
      out.report.Repos.Perm (exampleRepos.filterMap
        (fun repo => repoTask exampleDuration repo ((allSucceed repo.Name 1).1))) ∧
      out.report.Repos.length ≤ exampleRepos.length ∧
      (∀ x ∈ out.report.Repos, x.Name ∈ exampleRepos.map Repository.Name) ∧
      ((exampleRepos.map Repository.Name).Nodup → ∀ repo ∈ exampleRepos,
        out.report.Repos.countP (fun x => x.Name = repo.Name) =
          if (allSucceed repo.Name 1).1 = [] then 0 else 1)) ∧
    (analyzeExecutionTime exampleDuration allSucceed 2 "org" exampleRepos List.reverse).map
      (fun out => out.report.Repos.map Repository.Name) = some ["A", "B"] :=
  ⟨report_lists_repos_with_runs exampleDuration allSucceed 2 "org" exampleRepos List.reverse
    (fun name => (allSucceed name 1).1) (fun l => List.reverse_perm l)
    (by decide), by decide⟩

/-- C4: with repositories `A` and `B`, the first request for the runs of `A`
failing and `B` having one run of 10 s, the error of `A` is the one reported and
the report is still assembled and printed, holding `B`. -/
theorem report_emitted_despite_fetch_error :
    analyzeExecutionTime exampleDuration oneFetchFails 2 "org"
        [{ Name := "A", TotalTime := 0, AvgTime := 0, Jobs := [] },
         { Name := "B", TotalTime := 0, AvgTime := 0, Jobs := [] }] id =
      some { taskErrors := ["unexpected EOF"]
             report := { Org := "org"
                         Repos := [{ Name := "B", TotalTime := 10, AvgTime := 10,
                                     Jobs := [{ Name := "build", TotalTime := 10, AvgTime := 10,
                                                RunCount := 1 }] }] } } := by
  decide

/-! ## Date range -/

theorem digitChar_digitValue (c : Char) (h : isDigit c = true) : digitChar (digitValue c) = c := by
  simp only [isDigit, decide_eq_true_eq] at h
  unfold digitChar digitValue
  have : 48 + (c.toNat - 48) = c.toNat := by omega
  rw [this]
  exact Char.ofNat_toNat c

theorem digitValue_lt (c : Char) (h : isDigit c = true) : digitValue c < 10 := by
  simp only [isDigit, decide_eq_true_eq] at h
  unfold digitValue
  omega

theorem isDigit_digitChar (k : Nat) (h : k < 10) :
    isDigit (digitChar k) = true ∧ digitValue (digitChar k) = k ∧ digitChar k ≠ '-' := by
  interval_cases k <;> decide

theorem daysIn_eq_daysInMonth (year month : Nat) (h1 : 1 ≤ month) (h2 : month ≤ 12) :
    daysIn month year = daysInMonth year month := by
  interval_cases month <;> simp [daysIn, daysInMonth, isLeap]
  by_cases h4 : year % 4 = 0 <;> by_cases h100 : year % 100 = 0 <;>
    by_cases h400 : year % 400 = 0 <;> simp [h4, h100, h400] <;> omega

theorem timeParse_of_isCalendarDate (s : String) (d : Date) (h : IsCalendarDate s d) :
    timeParse s = some d := by
  obtain ⟨hy, hm1, hm2, hd1, hd2, rfl⟩ := h
  obtain ⟨year, month, day⟩ := d
  simp only at hy hm1 hm2 hd1 hd2
  have hdm : day ≤ 31 := by
    have : daysInMonth year month ≤ 31 := by
      interval_cases month <;> simp only [daysInMonth] <;> first | omega | (split <;> omega)
    omega
  obtain ⟨a1, a2, _⟩ := isDigit_digitChar (year / 1000) (by omega)
  obtain ⟨b1, b2, _⟩ := isDigit_digitChar (year / 100 % 10) (by omega)
  obtain ⟨c1, c2, _⟩ := isDigit_digitChar (year / 10 % 10) (by omega)
  obtain ⟨e1, e2, _⟩ := isDigit_digitChar (year % 10) (by omega)
  obtain ⟨f1, f2, _⟩ := isDigit_digitChar (month / 10) (by omega)
  obtain ⟨g1, g2, _⟩ := isDigit_digitChar (month % 10) (by omega)
  obtain ⟨i1, i2, _⟩ := isDigit_digitChar (day / 10) (by omega)
  obtain ⟨j1, j2, _⟩ := isDigit_digitChar (day % 10) (by omega)
  have hyear : year / 1000 * 1000 + year / 100 % 10 * 100 + year / 10 % 10 * 10 + year % 10
      = year := by omega
  have hmonth : month / 10 * 10 + month % 10 = month := by omega
  have hday : day / 10 * 10 + day % 10 = day := by omega
  have hdays := daysIn_eq_daysInMonth year month hm1 hm2
  simp only [timeParse, renderDate, String.toList, a1, a2, b1, b2, c1, c2, e1, e2, f1, f2, g1,
    g2, i1, i2, j1, j2, hyear, hmonth, hday, hdays, Bool.and_self, decide_True, if_true, hm1,
    hm2, hd1, hd2, and_self]

theorem isCalendarDate_of_timeParse (s : String) (d : Date) (h : timeParse s = some d) :
    IsCalendarDate s d := by
  unfold timeParse at h
  split at h
  · rename_i y1 y2 y3 y4 s1 m1 m2 s2 d1 d2 hs
    split at h
    · rename_i hc
      simp only [Bool.and_eq_true, decide_eq_true_eq] at hc
      obtain ⟨⟨⟨⟨⟨⟨⟨⟨⟨hy1, hy2⟩, hy3⟩, hy4⟩, hs1⟩, hm1⟩, hm2⟩, hs2⟩, hd1⟩, hd2⟩ := hc
      simp only at h
      split at h
      · rename_i hr
        simp only [Option.some.injEq] at h
        subst h
        have := digitValue_lt y1 hy1
        have := digitValue_lt y2 hy2
        have := digitValue_lt y3 hy3
        have := digitValue_lt y4 hy4
        have := digitValue_lt m1 hm1
        have := digitValue_lt m2 hm2
        have := digitValue_lt d1 hd1
        have := digitValue_lt d2 hd2
        refine ⟨by simp only; omega, hr.1, hr.2.1, hr.2.2.1, ?_, ?_⟩
        · rw [← daysIn_eq_daysInMonth _ _ hr.1 hr.2.1]; exact hr.2.2.2
        · have e1 : (digitValue y1 * 1000 + digitValue y2 * 100 + digitValue y3 * 10 +
              digitValue y4) / 1000 = digitValue y1 := by omega
          have e2 : (digitValue y1 * 1000 + digitValue y2 * 100 + digitValue y3 * 10 +
              digitValue y4) / 100 % 10 = digitValue y2 := by omega
          have e3 : (digitValue y1 * 1000 + digitValue y2 * 100 + digitValue y3 * 10 +
              digitValue y4) / 10 % 10 = digitValue y3 := by omega
          have e4 : (digitValue y1 * 1000 + digitValue y2 * 100 + digitValue y3 * 10 +
              digitValue y4) % 10 = digitValue y4 := by omega
          have e5 : (digitValue m1 * 10 + digitValue m2) / 10 = digitValue m1 := by omega
          have e6 : (digitValue m1 * 10 + digitValue m2) % 10 = digitValue m2 := by omega
          have e7 : (digitValue d1 * 10 + digitValue d2) / 10 = digitValue d1 := by omega
          have e8 : (digitValue d1 * 10 + digitValue d2) % 10 = digitValue d2 := by omega
          simp only [renderDate, e1, e2, e3, e4, e5, e6, e7, e8, digitChar_digitValue, hy1, hy2,
            hy3, hy4, hm1, hm2, hd1, hd2]
          subst hs1 hs2
          rw [← hs]
          rfl
      · exact absurd h (by simp)
    · exact absurd h (by simp)
  · exact absurd h (by simp)

theorem timeParse_iff (s : String) (d : Date) : timeParse s = some d ↔ IsCalendarDate s d :=
  ⟨isCalendarDate_of_timeParse s d, timeParse_of_isCalendarDate s d⟩

/-- With both strings given, `parseDateRange` is decided by the two parses. -/
theorem parseDateRange_of_nonempty (weekAgo today fromStr toStr : String)
    (hf : fromStr ≠ "") (ht : toStr ≠ "") :
    parseDateRange weekAgo today fromStr toStr =
      match timeParse fromStr, timeParse toStr with
      | none, _ => ("", some "invalid start date format: please use YYYY-MM-DD")
      | some _, none => ("", some "invalid end date format: please use YYYY-MM-DD")
      | some a, some b =>
        if a.After b then ("", some "the start date must be before the end date")
        else (fromStr ++ ".." ++ toStr, none) := by
  have h0 : ¬ (fromStr = "" ∧ toStr = "") := fun h => hf h.1
  unfold parseDateRange validateDates
  simp only [h0, if_false, hf, ht, ne_eq, not_false_eq_true, if_true]
  cases h1 : timeParse fromStr with
  | none => rfl
  | some a =>
    cases h2 : timeParse toStr with
    | none => rfl
    | some b => simp only [h1, h2, Option.getD_some, and_self, if_false]

/-- C10: for non-empty `fromStr` and `toStr`, `parseDateRange` returns exactly
`fromStr ++ ".." ++ toStr` without error when both are valid `YYYY-MM-DD`
calendar dates and the first is not after the second (equal dates included), and
returns an error (with the empty string) when either is not such a date or the
first is after the second. -/
theorem parseDateRange_spec (weekAgo today fromStr toStr : String)
    (hf : fromStr ≠ "") (ht : toStr ≠ "") :
    (∀ a b, IsCalendarDate fromStr a → IsCalendarDate toStr b → a.After b = false →
      parseDateRange weekAgo today fromStr toStr = (fromStr ++ ".." ++ toStr, none)) ∧
    (((¬ ∃ a, IsCalendarDate fromStr a) ∨ (¬ ∃ b, IsCalendarDate toStr b) ∨
        (∃ a b, IsCalendarDate fromStr a ∧ IsCalendarDate toStr b ∧ a.After b = true)) →
      ∃ e, parseDateRange weekAgo today fromStr toStr = ("", some e)) := by
  rw [parseDateRange_of_nonempty weekAgo today fromStr toStr hf ht]
  constructor
  · intro a b ha hb hab
    rw [timeParse_of_isCalendarDate _ _ ha, timeParse_of_isCalendarDate _ _ hb]
    simp only [hab, Bool.false_eq_true, if_false]
  · intro h
    cases h1 : timeParse fromStr with
    | none => exact ⟨_, rfl⟩
    | some a =>
      cases h2 : timeParse toStr with
      | none => exact ⟨_, rfl⟩
      | some b =>
        rcases h with h | h | h
        · exact absurd ⟨a, isCalendarDate_of_timeParse _ _ h1⟩ h
        · exact absurd ⟨b, isCalendarDate_of_timeParse _ _ h2⟩ h
        · obtain ⟨a', b', ha, hb, hab⟩ := h
          have ea := timeParse_of_isCalendarDate _ _ ha
          have eb := timeParse_of_isCalendarDate _ _ hb
          rw [h1] at ea
          rw [h2] at eb
          simp only [Option.some.injEq] at ea eb
          subst ea eb
          exact ⟨"the start date must be before the end date", by simp only [hab, if_true]⟩

/-- C10, on the equal dates 2024-01-01 and 2024-01-01, and on 2024-02-30, which
is no calendar date. -/
theorem parseDateRange_spec_witness :
    parseDateRange "2023-12-25" "2024-01-01" "2024-01-01" "2024-01-01" =
      ("2024-01-01..2024-01-01", none) ∧
    (∃ e, parseDateRange "2023-12-25" "2024-01-01" "2024-02-30" "2024-03-01" = ("", some e)) ∧
    (∃ e, parseDateRange "2023-12-25" "2024-01-01" "2024-03-02" "2024-03-01" = ("", some e)) :=
  ⟨(parseDateRange_spec "2023-12-25" "2024-01-01" "2024-01-01" "2024-01-01"
      (by decide) (by decide)).1 ⟨2024, 1, 1⟩ ⟨2024, 1, 1⟩
      ⟨by decide, by decide, by decide, by decide, by decide, by decide⟩
      ⟨by decide, by decide, by decide, by decide, by decide, by decide⟩ (by decide),
    (parseDateRange_spec "2023-12-25" "2024-01-01" "2024-02-30" "2024-03-01"
      (by decide) (by decide)).2
      (Or.inl (fun h => h.elim (fun a ha =>
        absurd ((timeParse_of_isCalendarDate _ _ ha).symm.trans
          (show timeParse "2024-02-30" = none by decide)) (by simp)))),
    ⟨"the start date must be before the end date", by decide⟩⟩

end Ghatime
